import Mathlib

/- Verification of the GoLinks query-resolution engine.

The definitions below are a shallow embedding of the Go source:
`internal/service` (LinkService: GetLink, UpdateLink, validateLinkRequest,
isURL, processResultLink, moveLastWord), `internal/repository`
(ShortcutRepository.GetByWord / Create / GetAllKeywords,
QueryRepository.Create) and the Go standard library string/URL helpers the
service uses (strings.TrimSpace, strings.Fields, strings.Contains,
strings.Join, strings.ReplaceAll, strings.HasPrefix / HasSuffix,
url.QueryEscape).

Strings are modelled as Lean `String` (a list of characters); the Go
functions used here operate on ASCII patterns, for which byte-level and
character-level processing agree.  The SQLite store is modelled as the list
of rows of `linktable`, in insertion order, with the autoincrement id
assigned as one more than the largest id present.  Timestamps are not
modelled: no verified behaviour depends on them (lookup and listing order
use the id column). -/

namespace GoLinks

/-- Character class of Go `unicode.IsSpace` (the white-space set used by
`strings.TrimSpace` and `strings.Fields`). -/
def goIsSpace (c : Char) : Bool :=
  let n := c.toNat
  n == 32 || n == 9 || n == 10 || n == 11 || n == 12 || n == 13 ||
  n == 133 || n == 160 || n == 5760 ||
  (decide (8192 ≤ n) && decide (n ≤ 8202)) ||
  n == 8232 || n == 8233 || n == 8239 || n == 8287 || n == 12288

/-- Character-list form of Go `strings.TrimSpace`: drop white space from the
front, then from the back. -/
def trimSpaceList (l : List Char) : List Char :=
  ((l.dropWhile goIsSpace).reverse.dropWhile goIsSpace).reverse

/-- Go `strings.TrimSpace`. -/
def goTrimSpace (s : String) : String := String.mk (trimSpaceList s.data)

/-- Auxiliary scanner for Go `strings.Fields`: `acc` is the current word,
reversed. -/
def fieldsAux : List Char → List Char → List (List Char)
  | acc, [] => if acc = [] then [] else [acc.reverse]
  | acc, c :: cs =>
    if goIsSpace c then
      if acc = [] then fieldsAux [] cs else acc.reverse :: fieldsAux [] cs
    else fieldsAux (c :: acc) cs

/-- Character-list form of Go `strings.Fields`. -/
def fieldsList (l : List Char) : List (List Char) := fieldsAux [] l

/-- Go `strings.Fields`: split around runs of white space. -/
def goFields (s : String) : List String := (fieldsList s.data).map String.mk

/-- Go `strings.Join` on character lists (words joined by a separator,
including empty words). -/
def joinChars (sep : List Char) : List (List Char) → List Char
  | [] => []
  | [w] => w
  | w :: ws => w ++ sep ++ joinChars sep ws

/-- Go `strings.Join`. -/
def goJoin (elems : List String) (sep : String) : String :=
  String.mk (joinChars sep.data (elems.map String.data))

/-- Decide whether `pat` is a leading segment of `l` (Go `strings.HasPrefix`
on character lists). -/
def startsWithChars : List Char → List Char → Bool
  | [], _ => true
  | _ :: _, [] => false
  | p :: ps, c :: cs => p == c && startsWithChars ps cs

/-- Go `strings.HasPrefix`. -/
def goStartsWith (s pat : String) : Bool := startsWithChars pat.data s.data

/-- Go `strings.HasSuffix`. -/
def goEndsWith (s pat : String) : Bool :=
  startsWithChars pat.data.reverse s.data.reverse

/-- Source `isURL` (service layer): a link is a URL when it starts with
the scheme marker for http or https. -/
def isURL (link : String) : Bool :=
  goStartsWith link "http://" || goStartsWith link "https://"

/-- Go `strings.ReplaceAll(s, tok, rep)` specialised to the only pattern the
source passes, the three-character substitution token (left-to-right,
non-overlapping). -/
def replaceTok (rep : List Char) : List Char → List Char
  | '\x7b' :: '*' :: '\x7d' :: rest => rep ++ replaceTok rep rest
  | c :: rest => c :: replaceTok rep rest
  | [] => []

/-- String form of `replaceTok`: `strings.ReplaceAll(s, tok, rep)`. -/
def replaceAllTok (s rep : String) : String :=
  String.mk (replaceTok rep.data s.data)

/-- The literal substitution token of the source. -/
def tok : String := "\x7b*\x7d"

/-- Whether the substitution token occurs in a character list. -/
def hasTok : List Char → Bool
  | '\x7b' :: '*' :: '\x7d' :: _ => true
  | _ :: rest => hasTok rest
  | [] => false

/-- Upper-case hexadecimal digit, as Go `"0123456789ABCDEF"[n]`. -/
def hexDigit : Nat → Char
  | 0 => '0' | 1 => '1' | 2 => '2' | 3 => '3' | 4 => '4'
  | 5 => '5' | 6 => '6' | 7 => '7' | 8 => '8' | 9 => '9'
  | 10 => 'A' | 11 => 'B' | 12 => 'C' | 13 => 'D' | 14 => 'E' | _ => 'F'

/-- UTF-8 byte sequence of a character (Go strings are UTF-8 bytes and
`url.QueryEscape` works byte-wise). -/
def utf8Bytes (c : Char) : List Nat :=
  let n := c.toNat
  if n < 128 then [n]
  else if n < 2048 then [192 + n / 64, 128 + n % 64]
  else if n < 65536 then [224 + n / 4096, 128 + (n / 64) % 64, 128 + n % 64]
  else [240 + n / 262144, 128 + (n / 4096) % 64, 128 + (n / 64) % 64,
        128 + n % 64]

/-- Percent-encoding of one byte, upper-case hex. -/
def pctByte (b : Nat) : List Char := ['%', hexDigit (b / 16), hexDigit (b % 16)]

/-- Bytes that Go `url.QueryEscape` leaves unescaped: alphanumerics and
`-`, `_`, `.`, `~`. -/
def isUnreservedQE (c : Char) : Bool :=
  let n := c.toNat
  (decide (97 ≤ n) && decide (n ≤ 122)) ||
  (decide (65 ≤ n) && decide (n ≤ 90)) ||
  (decide (48 ≤ n) && decide (n ≤ 57)) ||
  n == 45 || n == 95 || n == 46 || n == 126

/-- Escaping of one character under Go `url.QueryEscape`: unreserved bytes
kept, space becomes `+`, everything else percent-encoded per UTF-8 byte. -/
def queryEscapeChar (c : Char) : List Char :=
  if isUnreservedQE c then [c]
  else if c = ' ' then ['+']
  else (utf8Bytes c).foldr (fun b acc => pctByte b ++ acc) []

/-- Go `url.QueryEscape`. -/
def queryEscape (s : String) : String :=
  String.mk (s.data.foldr (fun c acc => queryEscapeChar c ++ acc) [])

/-- Source `processResultLink`: strip substitution tokens out of the search
term, trim it, query-escape it, substitute it for every token in the link,
and trim the result. -/
def processResultLink (link searchTerm : String) : String :=
  let st := replaceAllTok searchTerm ""
  let st := goTrimSpace st
  let st := queryEscape st
  goTrimSpace (replaceAllTok link st)

/-- Source `moveLastWord`: move the last word of `moveFrom` to the front of
`moveTo`; both sides re-joined with single spaces. -/
def moveLastWord (moveFrom moveTo : String) : String × String :=
  match (goFields moveFrom).reverse with
  | [] => (moveFrom, moveTo)
  | lastWord :: restRev =>
    (goJoin restRev.reverse " ", goJoin (lastWord :: goFields moveTo) " ")

/-- A row of `linktable` (domain `Shortcut`); `createdAt` is not modelled
since no verified behaviour reads it. -/
structure Shortcut where
  id : Nat
  word : String
  link : String
  user : String
deriving Repr, DecidableEq

/-- Repository `GetByWord`: `SELECT ... WHERE word = ? ORDER BY id DESC
LIMIT 1` — the matching row with the greatest id (ids are unique in the
database; ties in the model resolve toward the later row). -/
def getByWord (db : List Shortcut) (w : String) : Option Shortcut :=
  db.foldl
    (fun best row =>
      if row.word = w then
        match best with
        | none => some row
        | some b => if b.id ≤ row.id then some row else some b
      else best)
    none

/-- Largest id present in the store (0 when empty). -/
def maxId (db : List Shortcut) : Nat := db.foldl (fun m r => Nat.max m r.id) 0

/-- Repository `Create`: `INSERT INTO linktable ...` — appends a new row,
never touching existing rows; the autoincrement id is one more than the
largest id present. -/
def createShortcut (db : List Shortcut) (word link user : String) :
    List Shortcut :=
  db ++ [⟨maxId db + 1, word, link, user⟩]

/-- Ordering used by repository `GetAllKeywords` (`ORDER BY max_id DESC`). -/
def byIdDesc (a b : Shortcut) : Prop := b.id ≤ a.id

instance : DecidableRel byIdDesc := fun a b =>
  inferInstanceAs (Decidable (b.id ≤ a.id))

instance : IsTotal Shortcut byIdDesc :=
  ⟨fun a b => (Nat.le_total b.id a.id).imp id id⟩

instance : IsTrans Shortcut byIdDesc :=
  ⟨fun _ _ _ hab hbc => Nat.le_trans hbc hab⟩

/-- Repository `GetAllKeywords`: `SELECT word, link, created_at, MAX(id)
... GROUP BY word ORDER BY max_id DESC` — for each distinct word the row
holding the greatest id, ordered by that id descending (SQLite returns the
bare columns from the row achieving `MAX(id)`). -/
def getAllKeywordsRepo (db : List Shortcut) : List Shortcut :=
  List.insertionSort byIdDesc
    (((db.map (fun r => r.word)).dedup).filterMap (getByWord db))

/-- Service `GetAllKeywords`: the repository listing filtered to rows whose
link is a URL. -/
def getAllKeywords (db : List Shortcut) : List Shortcut :=
  (getAllKeywordsRepo db).filter (fun r => isURL r.link)

/-- Validation message for an empty word. -/
def msgNoWord : String := "No word given, cannot setup a golink"

/-- Single-quote character, kept out of string literals. -/
def sq : String := String.mk [Char.ofNat 39]

/-- Validation message for a word ending in a slash. -/
def msgSlash : String :=
  "Words ending in a " ++ sq ++ "/" ++ sq ++ " are not supported"

/-- Validation message for an empty link. -/
def msgNoLink : String := "No link given, cannot setup a golink"

/-- Validation message for a self-referential word. -/
def msgSelf : String := "Word points to itself, will cause a recursive lookup"

/-- Validation message for a non-URL link. -/
def msgNotURL : String := "URL must start with http:// or https://"

instance {ε α : Type} [DecidableEq ε] [DecidableEq α] :
    DecidableEq (Except ε α) := fun x y =>
  match x, y with
  | Except.ok a, Except.ok b =>
    if h : a = b then Decidable.isTrue (by rw [h])
    else Decidable.isFalse (fun hc => by cases hc; exact h rfl)
  | Except.error a, Except.error b =>
    if h : a = b then Decidable.isTrue (by rw [h])
    else Decidable.isFalse (fun hc => by cases hc; exact h rfl)
  | Except.ok _, Except.error _ => Decidable.isFalse (fun hc => by cases hc)
  | Except.error _, Except.ok _ => Decidable.isFalse (fun hc => by cases hc)

/-- Source `validateLinkRequest`: word and link are trimmed into locals and
checked in order; the caller keeps the untrimmed originals. -/
def validateLinkRequest (word link : String) : Option String :=
  let w := goTrimSpace word
  let l := goTrimSpace link
  if w = "" then some msgNoWord
  else if goEndsWith w "/" then some msgSlash
  else if l = "" then some msgNoLink
  else if l = w then some msgSelf
  else none

/-- Source `UpdateLink`: validate, then require the (untrimmed) link to be
a URL, then create the row with the untrimmed word and link. -/
def updateLink (db : List Shortcut) (word link user : String) :
    Except String (List Shortcut) :=
  match validateLinkRequest word link with
  | some m => Except.error m
  | none =>
    if isURL link then Except.ok (createShortcut db word link user)
    else Except.error msgNotURL

/-- Outcome of one `GetLink` call; `outOfFuel` is the model's marker for
exceeding the recursion allowance (the source recursion is unbounded on
alias chains). -/
inductive ResolveResult where
  | ok (destination : String)
  | invalidQuery (message : String)
  | outOfFuel
deriving Repr, DecidableEq

/-- Message of the source `InvalidQueryError`:
`"Unable to find link for query " + strings.Join([word, searchTerm], " ")`. -/
def notFoundMessage (word searchTerm : String) : String :=
  "Unable to find link for query " ++ goJoin [word, searchTerm] " "

/-- Source `GetLink`, fuel-indexed.  `logErr` is the usage-log collaborator
(`queryRepo.Create`): `none` means the insert succeeded, `some m` that it
failed with message `m`.  The returned list collects the ids for which a
usage-record insert was attempted, in order.  Every recursive call (both the
word-splitting retry and the alias hop) consumes one unit of fuel. -/
def GetLink (db : List Shortcut) (logErr : Nat → Option String) :
    Nat → String → String → ResolveResult × List Nat
  | 0, _, _ => (ResolveResult.outOfFuel, [])
  | fuel + 1, word, searchTerm =>
    match getByWord db (goTrimSpace word) with
    | none =>
      if (goTrimSpace word).data.contains ' ' then
        GetLink db logErr fuel
          (moveLastWord (goTrimSpace word) searchTerm).1
          (moveLastWord (goTrimSpace word) searchTerm).2
      else
        (ResolveResult.invalidQuery
          (notFoundMessage (goTrimSpace word) searchTerm), [])
    | some shortcut =>
      let cont : ResolveResult × List Nat :=
        match logErr shortcut.id with
        | some _ =>
          -- the failed usage-record insert is logged and swallowed;
          -- resolution continues exactly as on success
          if isURL shortcut.link then
            (ResolveResult.ok (processResultLink shortcut.link searchTerm), [])
          else GetLink db logErr fuel shortcut.link searchTerm
        | none =>
          if isURL shortcut.link then
            (ResolveResult.ok (processResultLink shortcut.link searchTerm), [])
          else GetLink db logErr fuel shortcut.link searchTerm
      (cont.1, shortcut.id :: cont.2)

/-- The HTTP layer's entry point: `GetLink(ctx, queryPath, "")` with a
usage log that accepts every record. -/
def Resolve (db : List Shortcut) (fuel : Nat) (query : String) :
    ResolveResult :=
  (GetLink db (fun _ => none) fuel query "").1

/-- Trace of the word-splitting retry loop of `GetLink`: the successive
(head, tail) pairs at which a store lookup happens, ending at the first pair
whose head is found or can no longer be split.  The `Nat` index is an upper
bound on the number of split steps; `splitTrace` instantiates it with the
word count of the query, which suffices. -/
def splitTraceN (db : List Shortcut) : Nat → String → String →
    List (String × String)
  | 0, w, t => [(goTrimSpace w, t)]
  | n + 1, w, t =>
    if getByWord db (goTrimSpace w) = none ∧
        (goTrimSpace w).data.contains ' ' then
      (goTrimSpace w, t) ::
        splitTraceN db n (moveLastWord (goTrimSpace w) t).1
          (moveLastWord (goTrimSpace w) t).2
    else [(goTrimSpace w, t)]

/-- Lookup-attempt trace of the word-splitting loop, with enough steps for
any query. -/
def splitTrace (db : List Shortcut) (w t : String) : List (String × String) :=
  splitTraceN db (goFields w).length w t

/-- The first element surviving `dropWhile` fails the predicate. -/
theorem dropWhile_head_false {p : Char → Bool} :
    ∀ {l : List Char} {c : Char} {cs : List Char},
      l.dropWhile p = c :: cs → p c = false := by
  intro l
  induction l with
  | nil => intro c cs h; simp at h
  | cons a as ih =>
    intro c cs h
    by_cases ha : p a = true
    · rw [List.dropWhile_cons_of_pos ha] at h
      exact ih h
    · rw [List.dropWhile_cons_of_neg ha] at h
      rw [List.cons.injEq] at h
      obtain ⟨rfl, rfl⟩ := h
      simpa using ha

/-- A list splits into its right-trimmed part and an all-satisfying tail. -/
theorem trimRight_decomp (p : Char → Bool) (m : List Char) :
    ∃ ss, (∀ c ∈ ss, p c = true) ∧
      m = (m.reverse.dropWhile p).reverse ++ ss := by
  refine ⟨(m.reverse.takeWhile p).reverse, ?_, ?_⟩
  · intro c hc
    rw [List.mem_reverse] at hc
    exact List.mem_takeWhile_imp hc
  · calc m = m.reverse.reverse := (List.reverse_reverse m).symm
    _ = (m.reverse.takeWhile p ++ m.reverse.dropWhile p).reverse := by
        rw [List.takeWhile_append_dropWhile]
    _ = (m.reverse.dropWhile p).reverse ++ (m.reverse.takeWhile p).reverse := by
        rw [List.reverse_append]

/-- The first character of a trimmed list is not white space. -/
theorem trimSpaceList_head {l : List Char} {c : Char} {cs : List Char}
    (h : trimSpaceList l = c :: cs) : goIsSpace c = false := by
  obtain ⟨ss, _, hm⟩ := trimRight_decomp goIsSpace (l.dropWhile goIsSpace)
  have hm2 : l.dropWhile goIsSpace = c :: (cs ++ ss) := by
    rw [hm]
    rw [show ((l.dropWhile goIsSpace).reverse.dropWhile goIsSpace).reverse =
      trimSpaceList l from rfl, h]
    rfl
  exact dropWhile_head_false hm2

/-- The last character of a trimmed list (first of its reverse) is not white
space. -/
theorem trimSpaceList_reverse_head {l : List Char} {c : Char} {cs : List Char}
    (h : (trimSpaceList l).reverse = c :: cs) : goIsSpace c = false := by
  rw [trimSpaceList, List.reverse_reverse] at h
  exact dropWhile_head_false h

/-- Trimming is idempotent. -/
theorem trimSpaceList_idem (l : List Char) :
    trimSpaceList (trimSpaceList l) = trimSpaceList l := by
  cases h : trimSpaceList l with
  | nil => simp [trimSpaceList]
  | cons c cs =>
    have hc : goIsSpace c = false := trimSpaceList_head h
    have h1 : (c :: cs).dropWhile goIsSpace = c :: cs :=
      List.dropWhile_cons_of_neg (by simp [hc])
    rw [trimSpaceList, h1]
    cases hr : (c :: cs).reverse with
    | nil => simp at hr
    | cons d ds =>
      have hd : goIsSpace d = false := trimSpaceList_reverse_head (h ▸ hr)
      rw [List.dropWhile_cons_of_neg (by simp [hd]), ← hr,
        List.reverse_reverse]

/-- Trimming is idempotent (string form). -/
theorem goTrimSpace_idem (s : String) :
    goTrimSpace (goTrimSpace s) = goTrimSpace s := by
  show String.mk (trimSpaceList (trimSpaceList s.data)) =
    String.mk (trimSpaceList s.data)
  rw [trimSpaceList_idem]

/-- A nonempty accumulator always flushes: the scanner's output is
nonempty. -/
theorem fieldsAux_ne_nil :
    ∀ (l acc : List Char), acc ≠ [] → fieldsAux acc l ≠ [] := by
  intro l
  induction l with
  | nil => intro acc h; simp [fieldsAux, h]
  | cons c cs ih =>
    intro acc h
    by_cases hc : goIsSpace c = true
    · simp [fieldsAux, hc, h]
    · simp only [fieldsAux, hc, if_false, Bool.false_eq_true]
      exact ih (c :: acc) (by simp)

/-- A non-space character somewhere in the input also forces a word out. -/
theorem fieldsAux_ne_nil_of_mem :
    ∀ (l acc : List Char), (∃ c ∈ l, goIsSpace c = false) →
      fieldsAux acc l ≠ [] := by
  intro l
  induction l with
  | nil => intro acc h; obtain ⟨c, hc, _⟩ := h; simp at hc
  | cons a as ih =>
    intro acc h
    by_cases ha : goIsSpace a = true
    · obtain ⟨c, hc, hcf⟩ := h
      have hcas : c ∈ as := by
        rcases List.mem_cons.mp hc with rfl | h2
        · rw [ha] at hcf; cases hcf
        · exact h2
      by_cases hacc : acc = []
      · simpa [fieldsAux, ha, hacc] using ih [] ⟨c, hcas, hcf⟩
      · simp [fieldsAux, ha, hacc]
    · simp only [fieldsAux, ha, if_false, Bool.false_eq_true]
      exact fieldsAux_ne_nil as (a :: acc) (by simp)

/-- Every word the scanner outputs is nonempty and free of white space. -/
theorem fieldsAux_words :
    ∀ (l acc : List Char), (∀ c ∈ acc, goIsSpace c = false) →
      ∀ w ∈ fieldsAux acc l, w ≠ [] ∧ ∀ c ∈ w, goIsSpace c = false := by
  intro l
  induction l with
  | nil =>
    intro acc hacc w hw
    by_cases h : acc = []
    · simp [fieldsAux, h] at hw
    · simp only [fieldsAux, h, if_false, List.mem_singleton] at hw
      subst hw
      exact ⟨by simpa using h, fun c hc => hacc c (List.mem_reverse.mp hc)⟩
  | cons a as ih =>
    intro acc hacc w hw
    by_cases ha : goIsSpace a = true
    · by_cases h : acc = []
      · rw [fieldsAux, if_pos ha, if_pos h] at hw
        exact ih [] (by simp) w hw
      · rw [fieldsAux, if_pos ha, if_neg h] at hw
        rcases List.mem_cons.mp hw with rfl | hw2
        · exact ⟨by simpa using h, fun c hc => hacc c (List.mem_reverse.mp hc)⟩
        · exact ih [] (by simp) w hw2
    · rw [fieldsAux, if_neg ha] at hw
      refine ih (a :: acc) ?_ w hw
      intro c hc
      rcases List.mem_cons.mp hc with rfl | hc2
      · simpa using ha
      · exact hacc c hc2

/-- Scanning a run of non-space characters just extends the accumulator. -/
theorem fieldsAux_run :
    ∀ (ws : List Char), (∀ c ∈ ws, goIsSpace c = false) →
      ∀ (acc cs : List Char),
        fieldsAux acc (ws ++ cs) = fieldsAux (ws.reverse ++ acc) cs := by
  intro ws
  induction ws with
  | nil => intro _ acc cs; simp
  | cons a as ih =>
    intro h acc cs
    have ha : goIsSpace a = false := h a (by simp)
    rw [List.cons_append, fieldsAux, if_neg (by simp [ha])]
    rw [ih (fun c hc => h c (by simp [hc])) (a :: acc) cs]
    simp

/-- Scanning only white space flushes the accumulator and nothing else. -/
theorem fieldsAux_allspace :
    ∀ (ss : List Char), (∀ c ∈ ss, goIsSpace c = true) →
      ∀ (acc : List Char),
        fieldsAux acc ss = if acc = [] then [] else [acc.reverse] := by
  intro ss
  induction ss with
  | nil => intro _ acc; rfl
  | cons a as ih =>
    intro h acc
    have ha : goIsSpace a = true := h a (by simp)
    rw [fieldsAux, if_pos ha]
    by_cases hacc : acc = []
    · rw [if_pos hacc, ih (fun c hc => h c (by simp [hc])) [], if_pos rfl,
        if_pos hacc]
    · rw [if_neg hacc, ih (fun c hc => h c (by simp [hc])) [], if_pos rfl,
        if_neg hacc]

/-- A literal space splits the scan into two independent scans. -/
theorem fieldsAux_split :
    ∀ (xs acc ys : List Char),
      fieldsAux acc (xs ++ ' ' :: ys) =
        fieldsAux acc (xs ++ [' ']) ++ fieldsAux [] ys := by
  have hsp : goIsSpace ' ' = true := by decide
  intro xs
  induction xs with
  | nil =>
    intro acc ys
    by_cases hacc : acc = []
    · simp [fieldsAux, hsp, hacc]
    · simp [fieldsAux, hsp, hacc]
  | cons a as ih =>
    intro acc ys
    by_cases ha : goIsSpace a = true
    · by_cases hacc : acc = []
      · simp only [List.cons_append, fieldsAux, List.append_eq, ha, if_pos,
          hacc, if_true]
        exact ih [] ys
      · simp only [List.cons_append, fieldsAux, List.append_eq, ha, if_pos,
          hacc, if_false]
        rw [ih [] ys]
    · simp only [List.cons_append, fieldsAux, List.append_eq, ha, if_false,
        Bool.false_eq_true]
      exact ih (a :: acc) ys

/-- Leading white space does not change the fields. -/
theorem fieldsList_dropWhile :
    ∀ l : List Char, fieldsList (l.dropWhile goIsSpace) = fieldsList l := by
  intro l
  induction l with
  | nil => rfl
  | cons a as ih =>
    by_cases ha : goIsSpace a = true
    · rw [List.dropWhile_cons_of_pos ha]
      have h2 : fieldsList (a :: as) = fieldsList as := by
        simp [fieldsList, fieldsAux, ha]
      rw [h2]
      exact ih
    · rw [List.dropWhile_cons_of_neg (by simp [ha])]

/-- Trailing white space does not change the fields. -/
theorem fieldsAux_append_allspace :
    ∀ (m ss acc : List Char), (∀ c ∈ ss, goIsSpace c = true) →
      fieldsAux acc (m ++ ss) = fieldsAux acc m := by
  intro m
  induction m with
  | nil =>
    intro ss acc h
    rw [List.nil_append, fieldsAux_allspace ss h acc, fieldsAux]
  | cons a as ih =>
    intro ss acc h
    by_cases ha : goIsSpace a = true
    · by_cases hacc : acc = []
      · simp only [List.cons_append, fieldsAux, List.append_eq, ha, if_pos,
          hacc, if_true]
        exact ih ss [] h
      · simp only [List.cons_append, fieldsAux, List.append_eq, ha, if_pos,
          hacc, if_false]
        rw [ih ss [] h]
    · simp only [List.cons_append, fieldsAux, List.append_eq, ha, if_false,
        Bool.false_eq_true]
      exact ih ss (a :: acc) h

/-- Trimming does not change the fields. -/
theorem fieldsList_trim (l : List Char) :
    fieldsList (trimSpaceList l) = fieldsList l := by
  obtain ⟨ss, hss, hm⟩ := trimRight_decomp goIsSpace (l.dropWhile goIsSpace)
  calc fieldsList (trimSpaceList l)
      = fieldsList (trimSpaceList l ++ ss) :=
        (fieldsAux_append_allspace _ ss [] hss).symm
    _ = fieldsList (l.dropWhile goIsSpace) := by rw [trimSpaceList, ← hm]
    _ = fieldsList l := fieldsList_dropWhile l

/-- Fields of a space-joined list of nonempty space-free words are the words
themselves. -/
theorem fieldsList_join :
    ∀ ws : List (List Char),
      (∀ w ∈ ws, w ≠ [] ∧ ∀ c ∈ w, goIsSpace c = false) →
      fieldsList (joinChars [' '] ws) = ws := by
  intro ws
  induction ws with
  | nil => intro _; rfl
  | cons w ws ih =>
    intro h
    obtain ⟨hw, hwc⟩ := h w (by simp)
    cases ws with
    | nil =>
      have h1 : fieldsAux (w.reverse ++ []) [] = [w] := by
        rw [List.append_nil]
        simp only [fieldsAux]
        rw [if_neg (by simpa using hw), List.reverse_reverse]
      calc fieldsList (joinChars [' '] [w]) = fieldsAux [] w := rfl
      _ = fieldsAux [] (w ++ []) := by rw [List.append_nil]
      _ = fieldsAux (w.reverse ++ []) [] := fieldsAux_run w hwc [] []
      _ = [w] := h1
    | cons w2 ws2 =>
      have hjoin : joinChars [' '] (w :: w2 :: ws2) =
          w ++ ' ' :: joinChars [' '] (w2 :: ws2) := by
        show w ++ [' '] ++ joinChars [' '] (w2 :: ws2) = _
        rw [List.append_assoc]
        rfl
      rw [hjoin, fieldsList, fieldsAux_split w [] _,
        fieldsAux_run w hwc [] [' '], List.append_nil]
      have : fieldsAux w.reverse [' '] = [w] := by
        rw [fieldsAux_allspace [' '] (by intro c hc; simp at hc; subst hc; decide)
          w.reverse, if_neg (by simpa using hw), List.reverse_reverse]
      rw [this]
      have := ih (fun x hx => h x (by simp [hx]))
      rw [fieldsList] at this
      rw [this]
      rfl

/-- A trimmed list with an interior literal space has at least two
fields. -/
theorem fieldsList_trim_two {l : List Char}
    (h : ' ' ∈ trimSpaceList l) : 2 ≤ (fieldsList (trimSpaceList l)).length := by
  obtain ⟨l₁, l₂, ht⟩ := List.append_of_mem h
  have hsp : goIsSpace ' ' = true := by decide
  have hl₁ : l₁ ≠ [] := by
    intro hnil
    subst hnil
    rw [List.nil_append] at ht
    have := trimSpaceList_head ht
    rw [hsp] at this
    cases this
  obtain ⟨c₀, l₁', rfl⟩ := List.exists_cons_of_ne_nil hl₁
  have hc₀ : goIsSpace c₀ = false := trimSpaceList_head (by rw [ht]; rfl)
  have hl₂ : ∃ c ∈ l₂, goIsSpace c = false := by
    cases hrev : l₂.reverse with
    | nil =>
      exfalso
      have h2 : l₂ = [] := by simpa using congrArg List.reverse hrev
      subst h2
      have : (trimSpaceList l).reverse = ' ' :: (c₀ :: l₁').reverse := by
        rw [ht]
        simp
      have := trimSpaceList_reverse_head this
      rw [hsp] at this
      cases this
    | cons d ds =>
      have hdl : d ∈ l₂ := by
        have : d ∈ l₂.reverse := by rw [hrev]; simp
        exact List.mem_reverse.mp this
      have hrv : (trimSpaceList l).reverse =
          d :: (ds ++ ([' '] ++ (c₀ :: l₁').reverse)) := by
        rw [ht, List.reverse_append,
          show (' ' :: l₂).reverse = l₂.reverse ++ [' '] from by simp, hrev]
        simp [List.append_assoc]
      exact ⟨d, hdl, trimSpaceList_reverse_head hrv⟩
  have hsplit : fieldsList (trimSpaceList l) =
      fieldsAux [] ((c₀ :: l₁') ++ [' ']) ++ fieldsAux [] l₂ := by
    rw [ht]
    exact fieldsAux_split (c₀ :: l₁') [] l₂
  have h1 : fieldsAux [] ((c₀ :: l₁') ++ [' ']) ≠ [] := by
    rw [List.cons_append, fieldsAux, if_neg (by simp [hc₀])]
    exact fieldsAux_ne_nil _ [c₀] (by simp)
  have h2 : fieldsAux [] l₂ ≠ [] := fieldsAux_ne_nil_of_mem l₂ [] hl₂
  rw [hsplit, List.length_append]
  have g1 : 1 ≤ (fieldsAux [] ((c₀ :: l₁') ++ [' '])).length :=
    List.length_pos.mpr h1
  have g2 : 1 ≤ (fieldsAux [] l₂).length := List.length_pos.mpr h2
  omega

/-- Every field of a string is nonempty and free of white space. -/
theorem goFields_mem_ok (s : String) :
    ∀ w ∈ goFields s, w.data ≠ [] ∧ ∀ c ∈ w.data, goIsSpace c = false := by
  intro w hw
  obtain ⟨v, hv, rfl⟩ := List.mem_map.mp hw
  exact fieldsAux_words s.data [] (by simp) v hv

/-- Fields of a space-join of nonempty space-free words are the words. -/
theorem goFields_goJoin (ws : List String)
    (h : ∀ w ∈ ws, w.data ≠ [] ∧ ∀ c ∈ w.data, goIsSpace c = false) :
    goFields (goJoin ws " ") = ws := by
  have hok : ∀ v ∈ ws.map String.data, v ≠ [] ∧
      ∀ c ∈ v, goIsSpace c = false := by
    intro v hv
    obtain ⟨w, hw, rfl⟩ := List.mem_map.mp hv
    exact h w hw
  show (fieldsList (joinChars [' '] (ws.map String.data))).map String.mk = ws
  rw [fieldsList_join (ws.map String.data) hok, List.map_map]
  have hid : (String.mk ∘ String.data) = id := funext fun w => rfl
  rw [hid, List.map_id]

/-- Trimming does not change the fields (string form). -/
theorem goFields_trim (s : String) : goFields (goTrimSpace s) = goFields s := by
  show (fieldsList (trimSpaceList s.data)).map String.mk =
    (fieldsList s.data).map String.mk
  rw [fieldsList_trim]

/-- Dropping the last word via `moveLastWord` drops the last field. -/
theorem moveLastWord_fst (h t : String) (hne : goFields h ≠ []) :
    goFields (moveLastWord h t).1 = (goFields h).dropLast := by
  cases hr : (goFields h).reverse with
  | nil => exact absurd (by simpa using congrArg List.reverse hr) hne
  | cons lastWord restRev =>
    have hfields : goFields h = restRev.reverse ++ [lastWord] := by
      have := congrArg List.reverse hr
      simpa using this
    have hdrop : (goFields h).dropLast = restRev.reverse := by
      rw [hfields]
      simp
    have hfst : (moveLastWord h t).1 = goJoin restRev.reverse " " := by
      rw [moveLastWord, hr]
    rw [hfst, goFields_goJoin restRev.reverse ?_, hdrop]
    intro w hw
    refine goFields_mem_ok h w ?_
    rw [hfields]
    exact List.mem_append_left _ hw

/-- A trimmed string with an interior space has at least two fields. -/
theorem goFields_two_of_contains (s : String)
    (h : (goTrimSpace s).data.contains ' ' = true) :
    2 ≤ (goFields (goTrimSpace s)).length := by
  have hmem : ' ' ∈ trimSpaceList s.data := by
    have : ' ' ∈ (goTrimSpace s).data := by simpa using h
    exact this
  have := fieldsList_trim_two hmem
  show 2 ≤ ((fieldsList (trimSpaceList s.data)).map String.mk).length
  rw [List.length_map]
  exact this

/-- The `getByWord` fold step, named for reasoning. -/
def gbwStep (w : String) (best : Option Shortcut) (row : Shortcut) :
    Option Shortcut :=
  if row.word = w then
    match best with
    | none => some row
    | some b => if b.id ≤ row.id then some row else some b
  else best

/-- `getByWord` is the fold of `gbwStep`. -/
theorem getByWord_eq_foldl (db : List Shortcut) (w : String) :
    getByWord db w = db.foldl (gbwStep w) none := rfl

/-- A successful lookup returns a stored row bearing the queried word. -/
theorem getByWord_some {db : List Shortcut} {w : String} {r : Shortcut} :
    getByWord db w = some r → r ∈ db ∧ r.word = w := by
  have general : ∀ (db : List Shortcut) (acc : Option Shortcut),
      db.foldl (gbwStep w) acc = some r →
        (r ∈ db ∧ r.word = w) ∨ acc = some r := by
    intro db
    induction db with
    | nil => intro acc h; right; exact h
    | cons d ds ih =>
      intro acc h
      rw [List.foldl_cons] at h
      rcases ih (gbwStep w acc d) h with ⟨hmem, hword⟩ | hacc
      · exact Or.inl ⟨List.mem_cons_of_mem d hmem, hword⟩
      · rw [gbwStep.eq_def] at hacc
        by_cases hw : d.word = w
        · rw [if_pos hw] at hacc
          cases acc with
          | none =>
            have hacc2 : some d = some r := hacc
            rw [Option.some.injEq] at hacc2
            exact Or.inl ⟨by rw [← hacc2]; simp, by rw [← hacc2]; exact hw⟩
          | some b =>
            have hacc2 : (if b.id ≤ d.id then some d else some b) = some r :=
              hacc
            by_cases hid : b.id ≤ d.id
            · rw [if_pos hid, Option.some.injEq] at hacc2
              exact Or.inl ⟨by rw [← hacc2]; simp, by rw [← hacc2]; exact hw⟩
            · rw [if_neg hid] at hacc2
              exact Or.inr hacc2
        · rw [if_neg hw] at hacc
          exact Or.inr hacc
  intro h
  rcases general db none (by rw [← getByWord_eq_foldl]; exact h) with hg | hg
  · exact hg
  · cases hg

/-- Ids in the store are bounded by `maxId`. -/
theorem maxId_mem_le {db : List Shortcut} {r : Shortcut} (h : r ∈ db) :
    r.id ≤ maxId db := by
  have aux1 : ∀ (db : List Shortcut) (s : Nat),
      s ≤ db.foldl (fun m x => Nat.max m x.id) s := by
    intro db
    induction db with
    | nil => intro s; exact Nat.le_refl s
    | cons d ds ih =>
      intro s
      rw [List.foldl_cons]
      exact Nat.le_trans (Nat.le_max_left s d.id) (ih (Nat.max s d.id))
  have general : ∀ (db : List Shortcut) (s : Nat), r ∈ db →
      r.id ≤ db.foldl (fun m x => Nat.max m x.id) s := by
    intro db
    induction db with
    | nil => intro s h; cases h
    | cons d ds ih =>
      intro s h
      rw [List.foldl_cons]
      rcases List.mem_cons.mp h with rfl | hds
      · exact Nat.le_trans (Nat.le_max_right s r.id) (aux1 ds _)
      · exact ih _ hds
  exact general db 0 h

/-- Appending a row pushes `maxId` to the max of old id and new id. -/
theorem maxId_append (db : List Shortcut) (r : Shortcut) :
    maxId (db ++ [r]) = Nat.max (maxId db) r.id := by
  rw [maxId, List.foldl_append]
  rfl

/-- Lookup over a snoc runs the fold step once more. -/
theorem getByWord_append (db : List Shortcut) (r : Shortcut) (w : String) :
    getByWord (db ++ [r]) w = gbwStep w (getByWord db w) r := by
  rw [getByWord_eq_foldl, List.foldl_append, ← getByWord_eq_foldl]
  rfl

/-- A freshly appended row with the queried word and a dominating id wins
the lookup. -/
theorem getByWord_snoc_new {db : List Shortcut} {r : Shortcut} {w : String}
    (hw : r.word = w) (hid : ∀ b, getByWord db w = some b → b.id ≤ r.id) :
    getByWord (db ++ [r]) w = some r := by
  rw [getByWord_append, gbwStep.eq_def, if_pos hw]
  cases hb : getByWord db w with
  | none => rfl
  | some b =>
    show (if b.id ≤ r.id then some r else some b) = some r
    rw [if_pos (hid b hb)]

/-- One step of `GetLink`: head found, link is a URL — substitute and stop,
attempting one usage record. -/
theorem GetLink_found_url (db : List Shortcut) (o : Nat → Option String)
    (fuel : Nat) (w t : String) (sc : Shortcut)
    (hf : getByWord db (goTrimSpace w) = some sc)
    (hu : isURL sc.link = true) :
    GetLink db o (fuel + 1) w t =
      (ResolveResult.ok (processResultLink sc.link t), [sc.id]) := by
  simp only [GetLink, hf]
  cases ho : o sc.id <;> simp [hu, ho]

/-- One step of `GetLink`: head found, link is not a URL — recurse on the
link with the tail preserved, attempting one usage record. -/
theorem GetLink_found_alias (db : List Shortcut) (o : Nat → Option String)
    (fuel : Nat) (w t : String) (sc : Shortcut)
    (hf : getByWord db (goTrimSpace w) = some sc)
    (hu : isURL sc.link = false) :
    GetLink db o (fuel + 1) w t =
      ((GetLink db o fuel sc.link t).1,
        sc.id :: (GetLink db o fuel sc.link t).2) := by
  simp only [GetLink, hf]
  cases ho : o sc.id <;> simp [hu, ho]

/-- One step of `GetLink`: head not found but splittable — move the last
word of the head onto the tail and retry. -/
theorem GetLink_split (db : List Shortcut) (o : Nat → Option String)
    (fuel : Nat) (w t : String)
    (hf : getByWord db (goTrimSpace w) = none)
    (hc : (goTrimSpace w).data.contains ' ' = true) :
    GetLink db o (fuel + 1) w t =
      GetLink db o fuel (moveLastWord (goTrimSpace w) t).1
        (moveLastWord (goTrimSpace w) t).2 := by
  simp only [GetLink, hf, hc]
  simp

/-- One step of `GetLink`: head not found and no space left — fail with the
not-found message built from the attempted head and tail. -/
theorem GetLink_notfound (db : List Shortcut) (o : Nat → Option String)
    (fuel : Nat) (w t : String)
    (hf : getByWord db (goTrimSpace w) = none)
    (hc : (goTrimSpace w).data.contains ' ' = false) :
    GetLink db o (fuel + 1) w t =
      (ResolveResult.invalidQuery (notFoundMessage (goTrimSpace w) t), []) := by
  simp only [GetLink, hf, hc]
  simp

/-- The usage-log outcome influences neither the result nor the list of
attempted usage records. -/
theorem GetLink_log_irrel (db : List Shortcut) (o1 o2 : Nat → Option String) :
    ∀ (fuel : Nat) (w t : String),
      GetLink db o1 fuel w t = GetLink db o2 fuel w t := by
  intro fuel
  induction fuel with
  | zero => intro w t; rfl
  | succ n ih =>
    intro w t
    cases hf : getByWord db (goTrimSpace w) with
    | none =>
      by_cases hc : (goTrimSpace w).data.contains ' ' = true
      · rw [GetLink_split db o1 n w t hf hc, GetLink_split db o2 n w t hf hc]
        exact ih _ _
      · have hc2 : (goTrimSpace w).data.contains ' ' = false := by
          simpa using hc
        rw [GetLink_notfound db o1 n w t hf hc2,
          GetLink_notfound db o2 n w t hf hc2]
    | some sc =>
      by_cases hu : isURL sc.link = true
      · rw [GetLink_found_url db o1 n w t sc hf hu,
          GetLink_found_url db o2 n w t sc hf hu]
      · have hu2 : isURL sc.link = false := by simpa using hu
        rw [GetLink_found_alias db o1 n w t sc hf hu2,
          GetLink_found_alias db o2 n w t sc hf hu2, ih sc.link t]

/-- `GetLink` trims its word on entry, so pre-trimming changes nothing. -/
theorem GetLink_trim (db : List Shortcut) (o : Nat → Option String)
    (fuel : Nat) (w t : String) :
    GetLink db o fuel (goTrimSpace w) t = GetLink db o fuel w t := by
  cases fuel with
  | zero => rfl
  | succ n => simp only [GetLink, goTrimSpace_idem]

/-- Token replacement is the identity on token-free inputs. -/
theorem replaceTok_no_tok (rep : List Char) :
    ∀ l : List Char, hasTok l = false → replaceTok rep l = l := by
  intro l
  induction l using hasTok.induct with
  | case1 rest => intro h; rw [hasTok] at h; cases h
  | case2 c rest hne ih =>
    intro h
    rw [hasTok] at h
    rw [replaceTok]
    rw [ih h]
    all_goals exact hne
  | case3 => intro _; rfl

/-- C1, counterexample: for the mapping `search ↦ https://e.com/?q=\x7b*\x7d`
and the query `search \x7b*\x7d` (so the tail at substitution time is the
literal token), the destination is `https://e.com/?q=` — not the target with
each token replaced by the URL-encoded tail, which would end in `%7B%2A%7D`.
The code first strips tokens out of the tail before encoding. -/
theorem C1_counterexample :
    getByWord [⟨1, "search", "https://e.com/?q=\x7b*\x7d", "u"⟩]
        (goTrimSpace "search") =
      some ⟨1, "search", "https://e.com/?q=\x7b*\x7d", "u"⟩ ∧
    queryEscape "\x7b*\x7d" = "%7B%2A%7D" ∧
    Resolve [⟨1, "search", "https://e.com/?q=\x7b*\x7d", "u"⟩] 9
        "search \x7b*\x7d" =
      ResolveResult.ok "https://e.com/?q=" ∧
    Resolve [⟨1, "search", "https://e.com/?q=\x7b*\x7d", "u"⟩] 9
        "search \x7b*\x7d" ≠
      ResolveResult.ok
        (goTrimSpace (replaceAllTok "https://e.com/?q=\x7b*\x7d"
          (queryEscape "\x7b*\x7d"))) := by
  refine ⟨by decide, by decide, by decide, by decide⟩

/-- C1 (amended): when the looked-up head's target is a URL, the destination
is the target with every occurrence of the token replaced by one and the
same value — the query-escape of the tail after the tail itself has had all
tokens removed and been trimmed — and the substituted string is trimmed; an
empty tail substitutes the empty string. -/
theorem C1_substitution (db : List Shortcut) (o : Nat → Option String)
    (fuel : Nat) (w t : String) (sc : Shortcut)
    (hf : getByWord db (goTrimSpace w) = some sc)
    (hu : isURL sc.link = true) :
    (GetLink db o (fuel + 1) w t).1 =
      ResolveResult.ok
        (goTrimSpace (replaceAllTok sc.link
          (queryEscape (goTrimSpace (replaceAllTok t ""))))) ∧
    (GetLink db o (fuel + 1) w "").1 =
      ResolveResult.ok (goTrimSpace (replaceAllTok sc.link "")) := by
  constructor
  · rw [GetLink_found_url db o fuel w t sc hf hu]
    rfl
  · rw [GetLink_found_url db o fuel w "" sc hf hu]
    show ResolveResult.ok (processResultLink sc.link "") = _
    have hempty : queryEscape (goTrimSpace (replaceAllTok "" "")) = "" := by
      decide
    rw [processResultLink, hempty]

/-- Witness for C1 at a concrete store and query. -/
theorem C1_substitution_witness :
    (GetLink [⟨1, "search", "https://g.com/?q=\x7b*\x7d", "u"⟩]
        (fun _ => none) (4 + 1) "search" "golang").1 =
      ResolveResult.ok
        (goTrimSpace (replaceAllTok "https://g.com/?q=\x7b*\x7d"
          (queryEscape (goTrimSpace (replaceAllTok "golang" ""))))) ∧
    (GetLink [⟨1, "search", "https://g.com/?q=\x7b*\x7d", "u"⟩]
        (fun _ => none) (4 + 1) "search" "").1 =
      ResolveResult.ok
        (goTrimSpace (replaceAllTok "https://g.com/?q=\x7b*\x7d" "")) :=
  C1_substitution [⟨1, "search", "https://g.com/?q=\x7b*\x7d", "u"⟩]
    (fun _ => none) 4 "search" "golang"
    ⟨1, "search", "https://g.com/?q=\x7b*\x7d", "u"⟩ (by decide) (by decide)

/-- C2, counterexample: with the store `k ↦ a` (alias), `a b ↦
https://compound.example.com`, `a ↦ https://a.example.com`, resolving
`k b` reaches the alias step with target `a` and tail `b`; the code
continues with head `a` and tail `b` and returns `https://a.example.com`,
whereas re-running the full algorithm on the concatenation `a b` — what the
claim's formula `Resolve(target + " " + tail)` prescribes — finds the
mapping of the compound keyword and returns `https://compound.example.com`. -/
theorem C2_counterexample :
    getByWord [⟨1, "k", "a", "u"⟩,
        ⟨2, "a b", "https://compound.example.com", "u"⟩,
        ⟨3, "a", "https://a.example.com", "u"⟩] (goTrimSpace "k b") = none ∧
    getByWord [⟨1, "k", "a", "u"⟩,
        ⟨2, "a b", "https://compound.example.com", "u"⟩,
        ⟨3, "a", "https://a.example.com", "u"⟩] "k" =
      some ⟨1, "k", "a", "u"⟩ ∧
    isURL "a" = false ∧
    Resolve [⟨1, "k", "a", "u"⟩,
        ⟨2, "a b", "https://compound.example.com", "u"⟩,
        ⟨3, "a", "https://a.example.com", "u"⟩] 9 "k b" =
      ResolveResult.ok "https://a.example.com" ∧
    Resolve [⟨1, "k", "a", "u"⟩,
        ⟨2, "a b", "https://compound.example.com", "u"⟩,
        ⟨3, "a", "https://a.example.com", "u"⟩] 9 "a b" =
      ResolveResult.ok "https://compound.example.com" ∧
    Resolve [⟨1, "k", "a", "u"⟩,
        ⟨2, "a b", "https://compound.example.com", "u"⟩,
        ⟨3, "a", "https://a.example.com", "u"⟩] 9 "k b" ≠
      Resolve [⟨1, "k", "a", "u"⟩,
        ⟨2, "a b", "https://compound.example.com", "u"⟩,
        ⟨3, "a", "https://a.example.com", "u"⟩] 9 "a b" := by
  refine ⟨by decide, by decide, by decide, by decide, by decide, by decide⟩

/-- C2 (amended): when the looked-up head maps to a target that is not a
URL, the algorithm recurses with the aliased keyword as the new head and
the accumulated tail preserved — `GetLink(target, tail)`, not a re-split of
the concatenated string; for the chain `d ↦ docs`,
`docs ↦ https://docs.example.com`, resolving `d` yields
`https://docs.example.com`. -/
theorem C2_alias_recursion :
    (∀ (db : List Shortcut) (o : Nat → Option String) (fuel : Nat)
        (w t : String) (sc : Shortcut),
      getByWord db (goTrimSpace w) = some sc → isURL sc.link = false →
      (GetLink db o (fuel + 1) w t).1 = (GetLink db o fuel sc.link t).1) ∧
    Resolve [⟨1, "d", "docs", "u"⟩,
        ⟨2, "docs", "https://docs.example.com", "u"⟩] 9 "d" =
      ResolveResult.ok "https://docs.example.com" := by
  constructor
  · intro db o fuel w t sc hf hu
    rw [GetLink_found_alias db o fuel w t sc hf hu]
  · decide

/-- Witness for C2's alias step at a concrete store. -/
theorem C2_alias_recursion_witness :
    (GetLink [⟨1, "d", "docs", "u"⟩,
        ⟨2, "docs", "https://docs.example.com", "u"⟩]
      (fun _ => none) (8 + 1) "d" "").1 =
    (GetLink [⟨1, "d", "docs", "u"⟩,
        ⟨2, "docs", "https://docs.example.com", "u"⟩]
      (fun _ => none) 8 "docs" "").1 :=
  C2_alias_recursion.1 [⟨1, "d", "docs", "u"⟩,
      ⟨2, "docs", "https://docs.example.com", "u"⟩]
    (fun _ => none) 8 "d" "" ⟨1, "d", "docs", "u"⟩ (by decide) (by decide)

/-- C9, counterexample: the stored target `https://x.com ` (trailing space)
is an absolute URL containing no substitution token, yet resolving its
keyword returns the trimmed string `https://x.com`, not the target
unchanged. -/
theorem C9_counterexample :
    isURL "https://x.com " = true ∧
    hasTok ("https://x.com " : String).data = false ∧
    Resolve [⟨1, "w", "https://x.com ", "u"⟩] 9 "w" =
      ResolveResult.ok "https://x.com" ∧
    Resolve [⟨1, "w", "https://x.com ", "u"⟩] 9 "w" ≠
      ResolveResult.ok "https://x.com " := by
  refine ⟨by decide, by decide, by decide, by decide⟩

/-- C9 (amended): for a mapping whose target is a URL containing no
substitution token, resolution returns the target trimmed of surrounding
white space — hence unchanged whenever the target has none — and the result
does not depend on the tail. -/
theorem C9_no_token (db : List Shortcut) (o : Nat → Option String)
    (fuel : Nat) (w t : String) (sc : Shortcut)
    (hf : getByWord db (goTrimSpace w) = some sc)
    (hu : isURL sc.link = true)
    (hn : hasTok sc.link.data = false) :
    (GetLink db o (fuel + 1) w t).1 =
      ResolveResult.ok (goTrimSpace sc.link) ∧
    (trimSpaceList sc.link.data = sc.link.data →
      (GetLink db o (fuel + 1) w t).1 = ResolveResult.ok sc.link) := by
  have hmain : (GetLink db o (fuel + 1) w t).1 =
      ResolveResult.ok (goTrimSpace sc.link) := by
    rw [GetLink_found_url db o fuel w t sc hf hu]
    show ResolveResult.ok (processResultLink sc.link t) = _
    rw [processResultLink, replaceAllTok,
      replaceTok_no_tok _ sc.link.data hn]
  refine ⟨hmain, fun htrim => ?_⟩
  rw [hmain]
  show ResolveResult.ok (String.mk (trimSpaceList sc.link.data)) = _
  rw [htrim]

/-- C4: `UpdateLink` checks its preconditions in a fixed order, first
failure winning, each with a distinct message: empty trimmed word; trimmed
word ending in a slash; empty trimmed link; trimmed link equal to trimmed
word; link (as given) not starting with the http or https scheme.  It
errors exactly in these cases, and on success appends exactly one row whose
link is a URL. -/
theorem C4_validation (db : List Shortcut) (w l u : String) :
    (updateLink db w l u = Except.error msgNoWord ↔ goTrimSpace w = "") ∧
    (updateLink db w l u = Except.error msgSlash ↔
      (goTrimSpace w ≠ "" ∧ goEndsWith (goTrimSpace w) "/" = true)) ∧
    (updateLink db w l u = Except.error msgNoLink ↔
      (goTrimSpace w ≠ "" ∧ goEndsWith (goTrimSpace w) "/" = false ∧
        goTrimSpace l = "")) ∧
    (updateLink db w l u = Except.error msgSelf ↔
      (goTrimSpace w ≠ "" ∧ goEndsWith (goTrimSpace w) "/" = false ∧
        goTrimSpace l ≠ "" ∧ goTrimSpace l = goTrimSpace w)) ∧
    (updateLink db w l u = Except.error msgNotURL ↔
      (goTrimSpace w ≠ "" ∧ goEndsWith (goTrimSpace w) "/" = false ∧
        goTrimSpace l ≠ "" ∧ goTrimSpace l ≠ goTrimSpace w ∧
        isURL l = false)) ∧
    (updateLink db w l u = Except.ok (createShortcut db w l u) ↔
      (goTrimSpace w ≠ "" ∧ goEndsWith (goTrimSpace w) "/" = false ∧
        goTrimSpace l ≠ "" ∧ goTrimSpace l ≠ goTrimSpace w ∧
        isURL l = true)) ∧
    (∀ db2, updateLink db w l u = Except.ok db2 →
      db2 = db ++ [⟨maxId db + 1, w, l, u⟩] ∧ isURL l = true) ∧
    (msgNoWord ≠ msgSlash ∧ msgNoWord ≠ msgNoLink ∧ msgNoWord ≠ msgSelf ∧
      msgNoWord ≠ msgNotURL ∧ msgSlash ≠ msgNoLink ∧ msgSlash ≠ msgSelf ∧
      msgSlash ≠ msgNotURL ∧ msgNoLink ≠ msgSelf ∧ msgNoLink ≠ msgNotURL ∧
      msgSelf ≠ msgNotURL) := by
  have d1 : msgNoWord ≠ msgSlash := by decide
  have d2 : msgNoWord ≠ msgNoLink := by decide
  have d3 : msgNoWord ≠ msgSelf := by decide
  have d4 : msgNoWord ≠ msgNotURL := by decide
  have d5 : msgSlash ≠ msgNoLink := by decide
  have d6 : msgSlash ≠ msgSelf := by decide
  have d7 : msgSlash ≠ msgNotURL := by decide
  have d8 : msgNoLink ≠ msgSelf := by decide
  have d9 : msgNoLink ≠ msgNotURL := by decide
  have d10 : msgSelf ≠ msgNotURL := by decide
  by_cases h1 : goTrimSpace w = ""
  · have hred : updateLink db w l u = Except.error msgNoWord := by
      simp [updateLink, validateLinkRequest, h1]
    simp [hred, h1, d1, d2, d3, d4, d5, d6, d7, d8, d9, d10]
  · by_cases h2 : goEndsWith (goTrimSpace w) "/" = true
    · have hred : updateLink db w l u = Except.error msgSlash := by
        simp [updateLink, validateLinkRequest, h1, h2]
      simp [hred, h1, h2, d1, d2, d3, d4, d5, d6, d7, d8, d9, d10,
        Ne.symm d1]
    · have h2f : goEndsWith (goTrimSpace w) "/" = false := by simpa using h2
      by_cases h3 : goTrimSpace l = ""
      · have hred : updateLink db w l u = Except.error msgNoLink := by
          simp [updateLink, validateLinkRequest, h1, h2f, h3]
        simp [hred, h1, h2f, h3, d1, d2, d3, d4, d5, d6, d7, d8, d9, d10,
          Ne.symm d2, Ne.symm d5]
      · by_cases h4 : goTrimSpace l = goTrimSpace w
        · have hred : updateLink db w l u = Except.error msgSelf := by
            simp [updateLink, validateLinkRequest, h1, h2f, h3, h4]
          simp [hred, h1, h2f, h3, h4, d1, d2, d3, d4, d5, d6, d7, d8, d9,
            d10, Ne.symm d3, Ne.symm d6, Ne.symm d8]
        · by_cases h5 : isURL l = true
          · have hred : updateLink db w l u =
                Except.ok (createShortcut db w l u) := by
              simp [updateLink, validateLinkRequest, h1, h2f, h3, h4, h5]
            simp [hred, createShortcut, h1, h2f, h3, h4, h5, d1, d2, d3,
              d4, d5, d6, d7, d8, d9, d10]
          · have h5f : isURL l = false := by simpa using h5
            have hred : updateLink db w l u = Except.error msgNotURL := by
              simp [updateLink, validateLinkRequest, h1, h2f, h3, h4, h5f]
            simp [hred, h1, h2f, h3, h4, h5f, d1, d2, d3, d4, d5, d6, d7,
              d8, d9, d10, Ne.symm d4, Ne.symm d7, Ne.symm d9, Ne.symm d10]

/-- Witness for C4 at concrete inputs: the self-reference case fires with
its own message. -/
theorem C4_validation_witness :
    updateLink [] "test" "test" "u" = Except.error msgSelf :=
  (C4_validation [] "test" "test" "u").2.2.2.1.mpr
    (by refine ⟨by decide, by decide, by decide, by decide⟩)

/-- C6: creating two mappings for the same keyword appends two rows — the
first is still present and unmodified — and lookup returns the second,
most recently created one; a subsequent `GetLink` on that keyword proceeds
from the second mapping's link only. -/
theorem C6_shadowing (db : List Shortcut) (w l1 l2 u1 u2 : String) :
    createShortcut (createShortcut db w l1 u1) w l2 u2 =
      db ++ [⟨maxId db + 1, w, l1, u1⟩] ++ [⟨maxId db + 2, w, l2, u2⟩] ∧
    (⟨maxId db + 1, w, l1, u1⟩ : Shortcut) ∈
      createShortcut (createShortcut db w l1 u1) w l2 u2 ∧
    getByWord (createShortcut (createShortcut db w l1 u1) w l2 u2) w =
      some ⟨maxId db + 2, w, l2, u2⟩ ∧
    (∀ (o : Nat → Option String) (fuel : Nat) (t : String),
      goTrimSpace w = w →
      (GetLink (createShortcut (createShortcut db w l1 u1) w l2 u2) o
          (fuel + 1) w t).1 =
        if isURL l2 then ResolveResult.ok (processResultLink l2 t)
        else (GetLink (createShortcut (createShortcut db w l1 u1) w l2 u2)
          o fuel l2 t).1) := by
  have hm1 : maxId (db ++ [⟨maxId db + 1, w, l1, u1⟩]) = maxId db + 1 := by
    rw [maxId_append]
    exact Nat.max_eq_right (Nat.le_succ _)
  have heq : createShortcut (createShortcut db w l1 u1) w l2 u2 =
      db ++ [⟨maxId db + 1, w, l1, u1⟩] ++ [⟨maxId db + 2, w, l2, u2⟩] := by
    show (db ++ [⟨maxId db + 1, w, l1, u1⟩]) ++
        [⟨maxId (db ++ [⟨maxId db + 1, w, l1, u1⟩]) + 1, w, l2, u2⟩] = _
    rw [hm1]
  have hlook : getByWord (createShortcut (createShortcut db w l1 u1) w l2 u2)
      w = some ⟨maxId db + 2, w, l2, u2⟩ := by
    rw [heq]
    apply getByWord_snoc_new rfl
    intro b hb
    have hmem := (getByWord_some hb).1
    have := maxId_mem_le hmem
    rw [hm1] at this
    show b.id ≤ maxId db + 2
    omega
  refine ⟨heq, ?_, hlook, ?_⟩
  · rw [heq]
    simp
  · intro o fuel t htrim
    have hlook2 : getByWord (createShortcut (createShortcut db w l1 u1) w
        l2 u2) (goTrimSpace w) = some ⟨maxId db + 2, w, l2, u2⟩ := by
      rw [htrim]
      exact hlook
    by_cases hu : isURL l2 = true
    · rw [GetLink_found_url _ o fuel w t _ hlook2 hu, if_pos hu]
    · have huf : isURL l2 = false := by simpa using hu
      rw [GetLink_found_alias _ o fuel w t _ hlook2 huf,
        if_neg (by simp [huf])]

/-- Witness for C6 at a concrete pair of creations. -/
theorem C6_shadowing_witness :
    getByWord (createShortcut (createShortcut [] "w"
        "https://one.example.com" "u") "w" "https://two.example.com" "v")
      "w" = some ⟨2, "w", "https://two.example.com", "v"⟩ ∧
    (GetLink (createShortcut (createShortcut [] "w"
        "https://one.example.com" "u") "w" "https://two.example.com" "v")
      (fun _ => none) (3 + 1) "w" "").1 =
      (if isURL "https://two.example.com" then
        ResolveResult.ok (processResultLink "https://two.example.com" "")
      else (GetLink (createShortcut (createShortcut [] "w"
          "https://one.example.com" "u") "w" "https://two.example.com" "v")
        (fun _ => none) 3 "https://two.example.com" "").1) :=
  ⟨(C6_shadowing [] "w" "https://one.example.com" "https://two.example.com"
      "u" "v").2.2.1,
    (C6_shadowing [] "w" "https://one.example.com" "https://two.example.com"
      "u" "v").2.2.2 (fun _ => none) 3 "" (by decide)⟩

/-- C8: the usage-log outcome influences neither the destination nor the
attempted records (a failed insert is swallowed); every store hit that
returns a mapping contributes exactly one usage-record attempt for that
mapping's id, aliases included; concretely, resolving the chain `d ↦ docs ↦
URL` under an always-failing log still succeeds and attempts ids 1 then 2. -/
theorem C8_usage_records :
    (∀ (db : List Shortcut) (o1 o2 : Nat → Option String) (fuel : Nat)
        (w t : String), GetLink db o1 fuel w t = GetLink db o2 fuel w t) ∧
    (∀ (db : List Shortcut) (o : Nat → Option String) (fuel : Nat)
        (w t : String) (sc : Shortcut),
      getByWord db (goTrimSpace w) = some sc →
      (GetLink db o (fuel + 1) w t).2 =
        sc.id :: (if isURL sc.link then []
          else (GetLink db o fuel sc.link t).2)) ∧
    (GetLink [⟨1, "d", "docs", "u"⟩,
        ⟨2, "docs", "https://docs.example.com", "u"⟩]
      (fun _ => some "insert failed") 9 "d" "").2 = [1, 2] ∧
    (GetLink [⟨1, "d", "docs", "u"⟩,
        ⟨2, "docs", "https://docs.example.com", "u"⟩]
      (fun _ => some "insert failed") 9 "d" "").1 =
      ResolveResult.ok "https://docs.example.com" := by
  refine ⟨fun db o1 o2 => GetLink_log_irrel db o1 o2, ?_, by decide,
    by decide⟩
  intro db o fuel w t sc hf
  by_cases hu : isURL sc.link = true
  · rw [GetLink_found_url db o fuel w t sc hf hu, if_pos hu]
  · have huf : isURL sc.link = false := by simpa using hu
    rw [GetLink_found_alias db o fuel w t sc hf huf,
      if_neg (by simp [huf])]

/-- Witness for C8's per-hit record attempt at a concrete store. -/
theorem C8_usage_records_witness :
    (GetLink [⟨1, "d", "docs", "u"⟩,
        ⟨2, "docs", "https://docs.example.com", "u"⟩]
      (fun _ => none) (8 + 1) "d" "").2 =
      (1 : Nat) :: (if isURL "docs" then []
        else (GetLink [⟨1, "d", "docs", "u"⟩,
          ⟨2, "docs", "https://docs.example.com", "u"⟩]
          (fun _ => none) 8 "docs" "").2) :=
  C8_usage_records.2.1 [⟨1, "d", "docs", "u"⟩,
      ⟨2, "docs", "https://docs.example.com", "u"⟩]
    (fun _ => none) 8 "d" "" ⟨1, "d", "docs", "u"⟩ (by decide)

/-- The split trace always starts with the trimmed word and the tail. -/
theorem splitTraceN_head (db : List Shortcut) (n : Nat) (w t : String) :
    ∃ rest, splitTraceN db n w t = (goTrimSpace w, t) :: rest := by
  cases n with
  | zero => exact ⟨[], rfl⟩
  | succ n =>
    by_cases h : getByWord db (goTrimSpace w) = none ∧
        (goTrimSpace w).data.contains ' ' = true
    · refine ⟨splitTraceN db n (moveLastWord (goTrimSpace w) t).1
        (moveLastWord (goTrimSpace w) t).2, ?_⟩
      simp only [splitTraceN]
      rw [if_pos h]
    · refine ⟨[], ?_⟩
      simp only [splitTraceN]
      rw [if_neg h]

/-- `getLastD` of a nonempty list ignores the default. -/
theorem getLastD_congr {α : Type} (l : List α) (d1 d2 : α) (h : l ≠ []) :
    l.getLastD d1 = l.getLastD d2 := by
  cases l with
  | nil => cases h rfl
  | cons b l2 => rw [List.getLastD_cons, List.getLastD_cons]

/-- One failed-lookup split drops exactly the last field of the head. -/
theorem split_step (w t : String)
    (hc : (goTrimSpace w).data.contains ' ' = true) :
    goFields (moveLastWord (goTrimSpace w) t).1 = (goFields w).dropLast ∧
    (goFields (moveLastWord (goTrimSpace w) t).1).length + 1 =
      (goFields w).length ∧
    2 ≤ (goFields w).length := by
  have h2 : 2 ≤ (goFields (goTrimSpace w)).length :=
    goFields_two_of_contains w hc
  have htrim : goFields (goTrimSpace w) = goFields w := goFields_trim w
  rw [htrim] at h2
  have hne : goFields (goTrimSpace w) ≠ [] := by
    rw [htrim]
    intro hnil
    rw [hnil] at h2
    simp at h2
  have ha : goFields (moveLastWord (goTrimSpace w) t).1 =
      (goFields (goTrimSpace w)).dropLast := moveLastWord_fst _ t hne
  rw [htrim] at ha
  refine ⟨ha, ?_, h2⟩
  rw [ha, List.length_dropLast]
  omega

/-- Invariant bundle of the word-splitting retry loop, by induction on the
step allowance: heads shrink by exactly one trailing field per step, the
trace is no longer than `max 1` of the word count, every non-final attempt
was a failed lookup, and `GetLink` marches through the trace consuming one
unit of fuel per split. -/
theorem splitTraceN_spec (db : List Shortcut) :
    ∀ (n : Nat) (w t : String), (goFields w).length ≤ n →
      List.Chain' (fun a b => goFields b.1 = (goFields a.1).dropLast ∧
          (goFields b.1).length + 1 = (goFields a.1).length)
        (splitTraceN db n w t) ∧
      (splitTraceN db n w t).length ≤ max 1 (goFields w).length ∧
      (∀ p ∈ (splitTraceN db n w t).dropLast, getByWord db p.1 = none) ∧
      (∀ (o : Nat → Option String) (fuel : Nat),
        GetLink db o (fuel + (splitTraceN db n w t).length) w t =
          GetLink db o (fuel + 1)
            ((splitTraceN db n w t).getLastD ("", "")).1
            ((splitTraceN db n w t).getLastD ("", "")).2) := by
  intro n
  induction n with
  | zero =>
    intro w t _
    refine ⟨List.chain'_singleton _, Nat.le_max_left 1 _, ?_, ?_⟩
    · intro p hp
      rw [show splitTraceN db 0 w t = [(goTrimSpace w, t)] from rfl] at hp
      simp at hp
    intro o fuel
    show GetLink db o (fuel + 1) w t = GetLink db o (fuel + 1) (goTrimSpace w) t
    exact (GetLink_trim db o (fuel + 1) w t).symm
  | succ n ih =>
    intro w t hlen
    by_cases hcond : getByWord db (goTrimSpace w) = none ∧
        (goTrimSpace w).data.contains ' ' = true
    · obtain ⟨hf, hc⟩ := hcond
      obtain ⟨ha, hb, h2⟩ := split_step w t hc
      have hlen1 : (goFields (moveLastWord (goTrimSpace w) t).1).length ≤ n := by
        omega
      obtain ⟨ihChain, ihLen, ihDrop, ihBridge⟩ :=
        ih (moveLastWord (goTrimSpace w) t).1
          (moveLastWord (goTrimSpace w) t).2 hlen1
      have htr : splitTraceN db (n + 1) w t =
          (goTrimSpace w, t) ::
            splitTraceN db n (moveLastWord (goTrimSpace w) t).1
              (moveLastWord (goTrimSpace w) t).2 := by
        simp only [splitTraceN]
        rw [if_pos ⟨hf, hc⟩]
      obtain ⟨rest, hrest⟩ := splitTraceN_head db n
        (moveLastWord (goTrimSpace w) t).1 (moveLastWord (goTrimSpace w) t).2
      refine ⟨?_, ?_, ?_, ?_⟩
      · rw [htr, hrest, List.chain'_cons]
        constructor
        · constructor
          · show goFields (goTrimSpace (moveLastWord (goTrimSpace w) t).1) =
              (goFields (goTrimSpace w)).dropLast
            rw [goFields_trim, goFields_trim]
            exact ha
          · show (goFields (goTrimSpace
                (moveLastWord (goTrimSpace w) t).1)).length + 1 =
              (goFields (goTrimSpace w)).length
            rw [goFields_trim, goFields_trim]
            exact hb
        · rw [← hrest]
          exact ihChain
      · rw [htr, List.length_cons]
        omega
      · rw [htr, hrest]
        intro p hp
        rw [show ((goTrimSpace w, t) ::
            (goTrimSpace (moveLastWord (goTrimSpace w) t).1,
              (moveLastWord (goTrimSpace w) t).2) :: rest).dropLast =
          (goTrimSpace w, t) ::
            ((goTrimSpace (moveLastWord (goTrimSpace w) t).1,
              (moveLastWord (goTrimSpace w) t).2) :: rest).dropLast from by
          simp] at hp
        rcases List.mem_cons.mp hp with rfl | hp2
        · exact hf
        · apply ihDrop
          rw [hrest]
          exact hp2
      · intro o fuel
        rw [htr, List.length_cons]
        have hne2 : splitTraceN db n (moveLastWord (goTrimSpace w) t).1
            (moveLastWord (goTrimSpace w) t).2 ≠ [] := by
          rw [hrest]
          simp
        have hlast : ((goTrimSpace w, t) ::
            splitTraceN db n (moveLastWord (goTrimSpace w) t).1
              (moveLastWord (goTrimSpace w) t).2).getLastD ("", "") =
            (splitTraceN db n (moveLastWord (goTrimSpace w) t).1
              (moveLastWord (goTrimSpace w) t).2).getLastD ("", "") := by
          rw [List.getLastD_cons]
          exact getLastD_congr _ _ _ hne2
        rw [hlast]
        calc GetLink db o (fuel + ((splitTraceN db n
              (moveLastWord (goTrimSpace w) t).1
              (moveLastWord (goTrimSpace w) t).2).length + 1)) w t
            = GetLink db o ((fuel + (splitTraceN db n
                (moveLastWord (goTrimSpace w) t).1
                (moveLastWord (goTrimSpace w) t).2).length) + 1) w t := rfl
          _ = GetLink db o (fuel + (splitTraceN db n
                (moveLastWord (goTrimSpace w) t).1
                (moveLastWord (goTrimSpace w) t).2).length)
              (moveLastWord (goTrimSpace w) t).1
              (moveLastWord (goTrimSpace w) t).2 :=
            GetLink_split db o _ w t hf hc
          _ = GetLink db o (fuel + 1)
              ((splitTraceN db n (moveLastWord (goTrimSpace w) t).1
                (moveLastWord (goTrimSpace w) t).2).getLastD ("", "")).1
              ((splitTraceN db n (moveLastWord (goTrimSpace w) t).1
                (moveLastWord (goTrimSpace w) t).2).getLastD ("", "")).2 :=
            ihBridge o fuel
    · have htr : splitTraceN db (n + 1) w t = [(goTrimSpace w, t)] := by
        simp only [splitTraceN]
        rw [if_neg hcond]
      refine ⟨by rw [htr]; exact List.chain'_singleton _,
        by rw [htr]; exact Nat.le_max_left 1 _,
        by rw [htr]; simp, ?_⟩
      intro o fuel
      rw [htr]
      show GetLink db o (fuel + 1) w t =
        GetLink db o (fuel + 1) (goTrimSpace w) t
      exact (GetLink_trim db o (fuel + 1) w t).symm

instance : IsTrans String
    (fun a b => (goFields b).length < (goFields a).length) :=
  ⟨fun _ _ _ h1 h2 => Nat.lt_trans h2 h1⟩

/-- C5, counterexample: for the empty query (zero words) the loop still
performs one lookup attempt, exceeding the claimed bound of "number of
words in the original query" attempts. -/
theorem C5_counterexample :
    (splitTrace [] "" "").length = 1 ∧ (goFields "").length = 0 ∧
    ¬ ((splitTrace [] "" "").length ≤ (goFields "").length) := by
  refine ⟨by decide, by decide, by decide⟩

/-- C5 (amended): along the word-splitting retry loop the heads drop
exactly one trailing word per failed lookup (hence strictly shrink), no
head value is ever re-attempted, the loop performs at most
`max 1 (number of words)` lookup attempts, every non-final attempt was a
failed lookup, and `GetLink` reaches the final head/tail pair after
consuming exactly one unit of fuel per split. -/
theorem C5_word_splitting (db : List Shortcut) (w t : String) :
    List.Chain' (fun a b => goFields b.1 = (goFields a.1).dropLast ∧
        (goFields b.1).length + 1 = (goFields a.1).length)
      (splitTrace db w t) ∧
    ((splitTrace db w t).map (fun p => p.1)).Nodup ∧
    (splitTrace db w t).length ≤ max 1 (goFields w).length ∧
    (∀ p ∈ (splitTrace db w t).dropLast, getByWord db p.1 = none) ∧
    (∀ (o : Nat → Option String) (fuel : Nat),
      GetLink db o (fuel + (splitTrace db w t).length) w t =
        GetLink db o (fuel + 1) ((splitTrace db w t).getLastD ("", "")).1
          ((splitTrace db w t).getLastD ("", "")).2) := by
  obtain ⟨hchain, hlen, hdrop, hbridge⟩ :=
    splitTraceN_spec db (goFields w).length w t (Nat.le_refl _)
  refine ⟨hchain, ?_, hlen, hdrop, hbridge⟩
  have hc2 : List.Chain'
      (fun a b : String => (goFields b).length < (goFields a).length)
      ((splitTrace db w t).map (fun p => p.1)) := by
    refine List.chain'_map_of_chain' (fun p => p.1) ?_ hchain
    intro a b hab
    obtain ⟨_, h2⟩ := hab
    show (goFields b.1).length < (goFields a.1).length
    omega
  rw [List.chain'_iff_pairwise] at hc2
  exact hc2.imp (fun {a b} hab heq => by
    subst heq
    exact Nat.lt_irrefl _ hab)

/-- Witness for C5: the single non-final attempt of the trace of query
`a b` on the empty store was a failed lookup. -/
theorem C5_word_splitting_witness :
    getByWord ([] : List Shortcut) "a b" = none :=
  (C5_word_splitting [] "a b" "").2.2.2.1 ("a b", "") (by decide)

/-- C3: every `InvalidQueryError` outcome arises from a space-free head
with no mapping, and carries the message built from that attempted head and
tail; conversely an unmapped, unsplittable head fails exactly so; `Resolve`
of the empty string and of an unmapped single word fail this way. -/
theorem C3_query_not_found :
    (∀ (db : List Shortcut) (o : Nat → Option String) (fuel : Nat)
        (w t m : String),
      (GetLink db o fuel w t).1 = ResolveResult.invalidQuery m →
      ∃ h2 t2, getByWord db h2 = none ∧ h2.data.contains ' ' = false ∧
        m = notFoundMessage h2 t2) ∧
    (∀ (db : List Shortcut) (o : Nat → Option String) (fuel : Nat)
        (w t : String),
      getByWord db (goTrimSpace w) = none →
      (goTrimSpace w).data.contains ' ' = false →
      (GetLink db o (fuel + 1) w t).1 =
        ResolveResult.invalidQuery (notFoundMessage (goTrimSpace w) t)) ∧
    Resolve [] 9 "" = ResolveResult.invalidQuery (notFoundMessage "" "") ∧
    Resolve [] 9 "nonexistent" =
      ResolveResult.invalidQuery (notFoundMessage "nonexistent" "") := by
  refine ⟨?_, ?_, by decide, by decide⟩
  · intro db o fuel
    induction fuel with
    | zero =>
      intro w t m h
      simp [GetLink] at h
    | succ n ih =>
      intro w t m h
      cases hf : getByWord db (goTrimSpace w) with
      | none =>
        by_cases hc : (goTrimSpace w).data.contains ' ' = true
        · rw [GetLink_split db o n w t hf hc] at h
          exact ih _ _ _ h
        · have hc2 : (goTrimSpace w).data.contains ' ' = false := by
            simpa using hc
          rw [GetLink_notfound db o n w t hf hc2] at h
          refine ⟨goTrimSpace w, t, hf, hc2, ?_⟩
          have h2 : ResolveResult.invalidQuery
              (notFoundMessage (goTrimSpace w) t) =
              ResolveResult.invalidQuery m := h
          rw [ResolveResult.invalidQuery.injEq] at h2
          exact h2.symm
      | some sc =>
        by_cases hu : isURL sc.link = true
        · rw [GetLink_found_url db o n w t sc hf hu] at h
          simp at h
        · have huf : isURL sc.link = false := by simpa using hu
          rw [GetLink_found_alias db o n w t sc hf huf] at h
          exact ih sc.link t m h
  · intro db o fuel w t hf hc
    rw [GetLink_notfound db o fuel w t hf hc]

/-- Witness for C3's terminal case at a concrete store. -/
theorem C3_query_not_found_witness :
    (GetLink [] (fun _ => none) (0 + 1) "zzz" "").1 =
      ResolveResult.invalidQuery (notFoundMessage (goTrimSpace "zzz") "") :=
  C3_query_not_found.2.1 [] (fun _ => none) 0 "zzz" "" (by decide) (by decide)

/-- The keywords produced by filter-mapping lookups over a word list form a
sublist of that word list. -/
theorem words_filterMap_sublist (db : List Shortcut) :
    ∀ ws : List String,
      List.Sublist ((ws.filterMap (getByWord db)).map (fun r => r.word))
        ws := by
  intro ws
  induction ws with
  | nil => simp
  | cons a ws ih =>
    cases hf : getByWord db a with
    | none =>
      rw [List.filterMap_cons_none hf]
      exact ih.cons a
    | some r =>
      rw [List.filterMap_cons_some hf]
      rw [List.map_cons, (getByWord_some hf).2]
      exact ih.cons₂ a

/-- C7: the live listing has at most one row per keyword; each listed row is
the most recent mapping of its keyword; rows are ordered by id descending;
every listed row's target is a URL; and a keyword whose most recent mapping
is not a URL never appears. -/
theorem C7_listing (db : List Shortcut) :
    ((getAllKeywords db).map (fun r => r.word)).Nodup ∧
    (∀ r ∈ getAllKeywords db, getByWord db r.word = some r) ∧
    (getAllKeywords db).Pairwise (fun a b => b.id ≤ a.id) ∧
    (∀ r ∈ getAllKeywords db, isURL r.link = true) ∧
    (∀ w r, getByWord db w = some r → isURL r.link = false →
      ∀ x ∈ getAllKeywords db, x.word ≠ w) := by
  have hmemrepo : ∀ x : Shortcut, x ∈ getAllKeywordsRepo db →
      getByWord db x.word = some x := by
    intro x hx
    rw [getAllKeywordsRepo, List.mem_insertionSort] at hx
    obtain ⟨a, _, hfa⟩ := List.mem_filterMap.mp hx
    have hword := (getByWord_some hfa).2
    rw [hword]
    exact hfa
  have hmem : ∀ x ∈ getAllKeywords db,
      getByWord db x.word = some x ∧ isURL x.link = true := by
    intro x hx
    rw [getAllKeywords, List.mem_filter] at hx
    exact ⟨hmemrepo x hx.1, hx.2⟩
  refine ⟨?_, fun r hr => (hmem r hr).1, ?_, fun r hr => (hmem r hr).2, ?_⟩
  · have hsub1 : List.Sublist (getAllKeywords db) (getAllKeywordsRepo db) :=
      List.filter_sublist _
    have hsubmap : List.Sublist
        ((getAllKeywords db).map (fun r => r.word))
        ((getAllKeywordsRepo db).map (fun r => r.word)) := hsub1.map _
    have hperm : List.Perm (getAllKeywordsRepo db)
        (((db.map (fun r => r.word)).dedup).filterMap (getByWord db)) :=
      List.perm_insertionSort _ _
    have hnd : ((((db.map (fun r => r.word)).dedup).filterMap
        (getByWord db)).map (fun r => r.word)).Nodup :=
      (List.nodup_dedup _).sublist (words_filterMap_sublist db _)
    have hnd2 : ((getAllKeywordsRepo db).map (fun r => r.word)).Nodup :=
      ((hperm.map _).nodup_iff).mpr hnd
    exact hnd2.sublist hsubmap
  · have hs : (getAllKeywordsRepo db).Pairwise byIdDesc :=
      List.sorted_insertionSort byIdDesc _
    have hp : (getAllKeywords db).Pairwise byIdDesc :=
      hs.sublist (List.filter_sublist _)
    exact hp
  · intro w r hgw hnb x hx hxw
    have h1 := (hmem x hx).1
    rw [hxw] at h1
    have hxr : x = r := by
      have := h1.symm.trans hgw
      rw [Option.some.injEq] at this
      exact this
    have := (hmem x hx).2
    rw [hxr, hnb] at this
    cases this

/-- Witness for C7 at a concrete store: the listed row's target is a URL. -/
theorem C7_listing_witness :
    isURL (Shortcut.mk 1 "a" "https://a.example.com" "u").link = true :=
  (C7_listing [⟨1, "a", "https://a.example.com", "u"⟩]).2.2.2.1
    ⟨1, "a", "https://a.example.com", "u"⟩ (by decide)

/-- Witness for C9 at a concrete store, tail present but unused. -/
theorem C9_no_token_witness :
    (GetLink [⟨1, "docs", "https://docs.example.com", "u"⟩]
        (fun _ => none) (2 + 1) "docs" "ignored tail").1 =
      ResolveResult.ok
        (goTrimSpace ("https://docs.example.com" : String)) ∧
    (trimSpaceList ("https://docs.example.com" : String).data =
        ("https://docs.example.com" : String).data →
      (GetLink [⟨1, "docs", "https://docs.example.com", "u"⟩]
          (fun _ => none) (2 + 1) "docs" "ignored tail").1 =
        ResolveResult.ok "https://docs.example.com") :=
  C9_no_token [⟨1, "docs", "https://docs.example.com", "u"⟩]
    (fun _ => none) 2 "docs" "ignored tail"
    ⟨1, "docs", "https://docs.example.com", "u"⟩
    (by decide) (by decide) (by decide)

end GoLinks
